import Mathlib

/- Shallow embedding of the wordlist-gen repository
   (src/libwordlist.py and src/wordlist_gen.py) and proofs of the
   specified properties of its selection, encoding, normalization and
   prefix-code operations. -/

set_option maxRecDepth 4000

namespace Wordlist

/-- Lexicographic comparison of character lists, modelling the Python
string comparison used by sorted and by tuple keys.  Characters are
compared by code point, exactly as Python compares str values. -/
def lexLe : List Char → List Char → Bool
  | [], _ => true
  | _ :: _, [] => false
  | a :: as, b :: bs => if a < b then true else if b < a then false else lexLe as bs

/-- Comparison of whole strings by code-point lexicographic order, the
order used by Python sorted(list_of_str). -/
def strLe (a b : String) : Bool := lexLe a.data b.data

/-- Comparison by the sort key (len(x), x) used in min_width_iter. -/
def termKeyLe (a b : String) : Bool :=
  if a.length < b.length then true
  else if b.length < a.length then false
  else lexLe a.data b.data

/-- Propositional form of strLe, for use with insertionSort. -/
def lexRel (a b : String) : Prop := strLe a b = true

instance : DecidableRel lexRel := fun a b => inferInstanceAs (Decidable (strLe a b = true))

/-- Propositional form of termKeyLe, for use with insertionSort. -/
def keyRel (a b : String) : Prop := termKeyLe a b = true

instance : DecidableRel keyRel := fun a b => inferInstanceAs (Decidable (termKeyLe a b = true))

/-- Model of Python list indexing lst[i] for possibly negative i,
returning none where Python raises IndexError. -/
def pyGet (l : List String) (i : Int) : Option String :=
  if 0 ≤ i then l.get? i.toNat
  else if (-i).toNat ≤ l.length then l.get? (l.length - (-i).toNat) else none

/-- Model of Python str.strip(): remove leading and trailing whitespace
characters. -/
def pyStrip (s : String) : String :=
  ⟨((s.data.dropWhile Char.isWhitespace).reverse.dropWhile Char.isWhitespace).reverse⟩

/-- Model of Python elem.startswith(pre): pre is a literal character
prefix of s. -/
def pyStartswith (s pre : String) : Bool := pre.data.isPrefixOf s.data

/-- Sum of the character lengths of all terms of a list: the list width
described in the module docstrings. -/
def sumLen (l : List String) : Nat := (l.map (fun s => s.length)).sum

/-- Guard of the is_prefix_code scan, in continue form: the adjacent
pair (a, e) does NOT abort the scan.  The scan aborts exactly when the
earlier element a is non-empty (Python truthiness of last_elem) and is
a character prefix of its successor e. -/
def okPair (a e : String) : Prop := ¬(a ≠ "" ∧ pyStartswith e a = true)

instance : DecidableRel okPair := fun a e =>
  inferInstanceAs (Decidable (¬(a ≠ "" ∧ pyStartswith e a = true)))

/-- Interpretation of a dice-roll digit sequence back as a zero-based
index: digits are 1-based faces, most significant first.  Modelled from
the spec: decode is described there only as the implicit inverse base
conversion to test against; it is not a function of the repository. -/
def dice_decode (sides : Nat) (ds : List Nat) : Nat :=
  ds.foldl (fun a d => a * sides + (d - 1)) 0

end Wordlist

namespace libwordlist

open Wordlist

/-- Embedding of libwordlist.base10_to_n: repeated divmod producing the
digits of num in the given base, most significant first.  The Python
while loop runs while curr >= base; it terminates only for base >= 2,
which the recursion guard reflects. -/
def base10_to_n (num : Nat) (base : Nat) : List Nat :=
  if h : 2 ≤ base ∧ base ≤ num then
    base10_to_n (num / base) base ++ [num % base]
  else [num]
termination_by num
decreasing_by
  exact Nat.div_lt_self (Nat.lt_of_lt_of_le (by omega) h.2) h.1

/-- Embedding of libwordlist.idx_to_dicenums: digits of item_index in
base dice_sides, each digit shifted to the 1-based dice face, left
padded with 1 entries and cut to the final dice_num positions by the
Python slice padded[-dice_num:], then joined with the separator. -/
def idx_to_dicenums (item_index : Nat) (dice_num : Nat) (dice_sides : Nat)
    (separator : String) : String :=
  let nums := (base10_to_n item_index dice_sides).map (fun x => x + 1)
  let padded := List.replicate dice_num 1 ++ nums
  let sliced := if dice_num = 0 then padded else padded.drop (padded.length - dice_num)
  String.intercalate separator (sliced.map (fun x => toString x))

/-- Embedding of libwordlist.filter_chars: keep exactly the terms whose
characters all belong to allowed; with allowed absent, pass every term
through unchanged. -/
def filter_chars (it : List String) (allowed : Option (List Char)) : List String :=
  match allowed with
  | none => it
  | some allowed =>
      it.filter (fun elem =>
        decide (elem.data.length ≤ (elem.data.filter (fun x => allowed.contains x)).length))

/-- Character substitution table of libwordlist.normalize, exactly as in
the source (note that the lowercase u with diaeresis maps to the
uppercase digraph UE there). -/
def TRANSFORMS (c : Char) : String :=
  if c = 'ä' then "ae" else if c = 'Ä' then "AE"
  else if c = 'æ' then "ae" else if c = 'Æ' then "AE"
  else if c = 'ö' then "oe" else if c = 'Ö' then "OE"
  else if c = 'ø' then "oe" else if c = 'Ø' then "OE"
  else if c = 'ü' then "UE" else if c = 'Ü' then "UE"
  else if c = 'ß' then "ss" else String.mk [c]

/-- Model of unicodedata.normalize("NFKD", ...) followed by dropping
combining characters, applied character-wise.  ASCII characters have no
decomposition and no combining class, so they pass unchanged; the
precomposed letters of the substitution table decompose into their base
letter plus a combining mark, which is dropped.  Characters outside
this domain never reach this function in the developed theorems and are
modelled as undecomposed. -/
def nfkdStripChar (c : Char) : List Char :=
  if c = 'ä' then ['a'] else if c = 'Ä' then ['A']
  else if c = 'ö' then ['o'] else if c = 'Ö' then ['O']
  else if c = 'ü' then ['u'] else if c = 'Ü' then ['U']
  else [c]

/-- Embedding of libwordlist.normalize: apply the substitution table to
every character, then NFKD decomposition with combining marks removed. -/
def normalize (text : String) : String :=
  let transformed := String.join (text.data.map TRANSFORMS)
  ⟨(transformed.data.map nfkdStripChar).flatten⟩

/-- Entries of the stripped word list whose length is strictly below the
effective maximum width; these are yielded first and in order by
shuffle_max_width_items. -/
def lt_width_entries (word_list : List String) (w : Nat) : List String :=
  (word_list.map pyStrip).filter (fun x => decide (x.length < w))

/-- Entries of the stripped word list whose length equals the effective
maximum width; these form the tier that random.shuffle permutes. -/
def max_width_entries (word_list : List String) (w : Nat) : List String :=
  (word_list.map pyStrip).filter (fun x => decide (x.length = w))

/-- Effective maximum width used by shuffle_max_width_items: the given
max_width if supplied, else the length of the longest stripped entry;
none models the ValueError that Python max raises on an empty list. -/
def eff_max_width (word_list : List String) (max_width : Option Nat) : Option Nat :=
  match max_width with
  | some w => some w
  | none => ((word_list.map pyStrip).map (fun s => s.length)).max?

/-- Embedding of libwordlist.shuffle_max_width_items.  The call to
random.shuffle is modelled by the parameter shuffled, which the
theorems constrain to be a permutation of the maximum-width tier.
The result is none where Python raises (max on an empty list). -/
def shuffle_max_width_items (word_list : List String) (max_width : Option Nat)
    (shuffled : List String) : Option (List String) :=
  match eff_max_width word_list max_width with
  | none => none
  | some w => some (lt_width_entries word_list w ++ shuffled)

/-- Sorting by the key (len(x), x), as in min_width_iter.  Python sorted
is a stable sort; it is modelled by the stable insertion sort. -/
def sortTerms (l : List String) : List String := l.insertionSort keyRel

/-- Embedding of libwordlist.min_width_iter.  The Python generator sorts
by (length, value); with shuffle_max_width it reads the boundary entry
all_terms[num - 1] (none models the IndexError when that index does not
exist), shuffles the maximum-width tier and yields the first num
entries.  The random shuffle outcome is the parameter shuffled. -/
def min_width_iter (iterator : List String) (num : Nat) (shuffle_max_width : Bool)
    (shuffled : List String) : Option (List String) :=
  let all_terms := sortTerms iterator
  if shuffle_max_width then
    match pyGet all_terms ((num : Int) - 1) with
    | none => none
    | some b =>
      match shuffle_max_width_items all_terms (some b.length) shuffled with
      | none => none
      | some ts => some (ts.take num)
  else some (all_terms.take num)

/-- Loop of libwordlist.is_prefix_code: last carries the Python
last_elem variable; the guard last_elem and elem.startswith(last_elem)
is false when last_elem is None or the empty string. -/
def ipcLoop : Option String → List String → Bool
  | _, [] => true
  | none, e :: rest => ipcLoop (some e) rest
  | some a, e :: rest =>
      if a ≠ "" ∧ pyStartswith e a then false else ipcLoop (some e) rest

/-- Embedding of libwordlist.is_prefix_code: sort lexicographically,
then scan adjacent elements with the loop above. -/
def is_prefix_code (iterator : List String) : Bool :=
  ipcLoop none (iterator.insertionSort lexRel)

end libwordlist

namespace wordlist_gen

open Wordlist

/-- Embedding of wordlist_gen.min_width_iter: sort by (length, value)
and yield the first num entries; this variant has no shuffling. -/
def min_width_iter (iterator : List String) (num : Nat) : List String :=
  (iterator.insertionSort keyRel).take num

/-- Python exception kinds relevant to the selection path.  The
constructor insufficientTermsError is modelled from the spec: the spec
names a distinct recoverable error type InsufficientTermsError, but no
such type exists anywhere under src/. -/
inductive PyError where
  | valueError (msg : String)
  | indexError
  | insufficientTermsError
  deriving DecidableEq, Repr

/-- Embedding of wordlist_gen.generate_wordlist: deduplicate (Python
set) and sort the input, raise ValueError when fewer unique terms than
the requested length exist, else yield the minimal-width selection in
lexicographically sorted order. -/
def generate_wordlist (input_terms : List String) (length : Nat) :
    Except PyError (List String) :=
  let terms := (input_terms.dedup).insertionSort lexRel
  if terms.length < length then
    .error (.valueError
      ("Wordlist too short: at least " ++ toString length ++ " unique terms required."))
  else
    .ok ((min_width_iter terms length).insertionSort lexRel)

end wordlist_gen

namespace Wordlist

open libwordlist wordlist_gen

theorem lexLe_nil_left (l : List Char) : lexLe [] l = true := rfl

theorem lexLe_cons_nil (a : Char) (as : List Char) : lexLe (a :: as) [] = false := rfl

theorem lexLe_cons_cons_self (a : Char) (as bs : List Char) :
    lexLe (a :: as) (a :: bs) = lexLe as bs := by
  simp [lexLe]

theorem lexLe_cons_of_lt {a b : Char} (as bs : List Char) (h : a < b) :
    lexLe (a :: as) (b :: bs) = true := by
  simp [lexLe, h]

theorem lexLe_cons_of_gt {a b : Char} (as bs : List Char) (h : b < a) :
    lexLe (a :: as) (b :: bs) = false := by
  simp [lexLe, lt_asymm h, h]

theorem lexLe_refl : ∀ l : List Char, lexLe l l = true := by
  intro l
  induction l with
  | nil => rfl
  | cons a as ih => rw [lexLe_cons_cons_self]; exact ih

theorem lexLe_total : ∀ l₁ l₂ : List Char, lexLe l₁ l₂ = true ∨ lexLe l₂ l₁ = true := by
  intro l₁
  induction l₁ with
  | nil => intro l₂; left; rfl
  | cons a as ih =>
    intro l₂
    cases l₂ with
    | nil => right; rfl
    | cons b bs =>
      rcases lt_trichotomy a b with h | h | h
      · left; exact lexLe_cons_of_lt as bs h
      · subst h
        rcases ih bs with h₂ | h₂
        · left; rw [lexLe_cons_cons_self]; exact h₂
        · right; rw [lexLe_cons_cons_self]; exact h₂
      · right; exact lexLe_cons_of_lt bs as h

theorem lexLe_trans : ∀ {l₁ l₂ l₃ : List Char},
    lexLe l₁ l₂ = true → lexLe l₂ l₃ = true → lexLe l₁ l₃ = true := by
  intro l₁
  induction l₁ with
  | nil => intro l₂ l₃ _ _; rfl
  | cons a as ih =>
    intro l₂ l₃ h₁₂ h₂₃
    cases l₂ with
    | nil => rw [lexLe_cons_nil] at h₁₂; exact absurd h₁₂ (by simp)
    | cons b bs =>
      cases l₃ with
      | nil => rw [lexLe_cons_nil] at h₂₃; exact absurd h₂₃ (by simp)
      | cons c cs =>
        rcases lt_trichotomy a b with hab | hab | hab
        · rcases lt_trichotomy b c with hbc | hbc | hbc
          · exact lexLe_cons_of_lt as cs (lt_trans hab hbc)
          · exact lexLe_cons_of_lt as cs (show a < c from hbc ▸ hab)
          · rw [lexLe_cons_of_gt bs cs hbc] at h₂₃; exact absurd h₂₃ (by simp)
        · subst hab
          rcases lt_trichotomy a c with hac | hac | hac
          · exact lexLe_cons_of_lt as cs hac
          · subst hac
            rw [lexLe_cons_cons_self] at h₁₂ h₂₃ ⊢
            exact ih h₁₂ h₂₃
          · rw [lexLe_cons_of_gt bs cs hac] at h₂₃; exact absurd h₂₃ (by simp)
        · rw [lexLe_cons_of_gt as bs hab] at h₁₂; exact absurd h₁₂ (by simp)

theorem lexLe_antisymm : ∀ {l₁ l₂ : List Char},
    lexLe l₁ l₂ = true → lexLe l₂ l₁ = true → l₁ = l₂ := by
  intro l₁
  induction l₁ with
  | nil =>
    intro l₂ _ h₂₁
    cases l₂ with
    | nil => rfl
    | cons b bs => rw [lexLe_cons_nil] at h₂₁; exact absurd h₂₁ (by simp)
  | cons a as ih =>
    intro l₂ h₁₂ h₂₁
    cases l₂ with
    | nil => rw [lexLe_cons_nil] at h₁₂; exact absurd h₁₂ (by simp)
    | cons b bs =>
      rcases lt_trichotomy a b with hab | hab | hab
      · rw [lexLe_cons_of_gt bs as hab] at h₂₁; exact absurd h₂₁ (by simp)
      · subst hab
        rw [lexLe_cons_cons_self] at h₁₂ h₂₁
        rw [ih h₁₂ h₂₁]
      · rw [lexLe_cons_of_gt as bs hab] at h₁₂; exact absurd h₁₂ (by simp)

instance : IsTotal String lexRel := ⟨fun a b => lexLe_total a.data b.data⟩

instance : IsTrans String lexRel := ⟨fun _ _ _ h₁ h₂ => lexLe_trans h₁ h₂⟩

instance : IsTotal String keyRel := by
  constructor
  intro a b
  unfold keyRel termKeyLe
  rcases Nat.lt_trichotomy a.length b.length with h | h | h
  · left; rw [if_pos h]
  · rcases lexLe_total a.data b.data with h₂ | h₂
    · left
      rw [if_neg (by omega), if_neg (by omega)]
      exact h₂
    · right
      rw [if_neg (by omega), if_neg (by omega)]
      exact h₂
  · right; rw [if_pos h]

instance : IsTrans String keyRel := by
  constructor
  intro a b c h₁ h₂
  unfold keyRel termKeyLe at h₁ h₂ ⊢
  rcases Nat.lt_trichotomy a.length b.length with hab | hab | hab
  · rcases Nat.lt_trichotomy b.length c.length with hbc | hbc | hbc
    · rw [if_pos (Nat.lt_trans hab hbc)]
    · rw [if_pos (show a.length < c.length from hbc ▸ hab)]
    · rw [if_neg (by omega), if_pos hbc] at h₂
      exact absurd h₂ (by simp)
  · rcases Nat.lt_trichotomy b.length c.length with hbc | hbc | hbc
    · rw [if_pos (show a.length < c.length from hab ▸ hbc)]
    · rw [if_neg (by omega), if_neg (by omega)] at h₁
      rw [if_neg (by omega), if_neg (by omega)] at h₂
      rw [if_neg (by omega), if_neg (by omega)]
      exact lexLe_trans h₁ h₂
    · rw [if_neg (by omega), if_pos hbc] at h₂
      exact absurd h₂ (by simp)
  · rw [if_neg (by omega), if_pos hab] at h₁
    exact absurd h₁ (by simp)

theorem b2n_digit_lt (base : Nat) (hb : 2 ≤ base) :
    ∀ num, ∀ d ∈ base10_to_n num base, d < base := by
  intro num
  induction num using Nat.strong_induction_on with
  | _ num ih =>
    intro d hd
    rw [base10_to_n] at hd
    split_ifs at hd with h
    · rcases List.mem_append.mp hd with h₁ | h₁
      · exact ih (num / base) (Nat.div_lt_self (by omega) hb) d h₁
      · have : d = num % base := by simpa using h₁
        subst this
        exact Nat.mod_lt _ (by omega)
    · have : d = num := by simpa using hd
      subst this
      omega

theorem b2n_foldl (base : Nat) (hb : 2 ≤ base) :
    ∀ num, (base10_to_n num base).foldl (fun a d => a * base + d) 0 = num := by
  intro num
  induction num using Nat.strong_induction_on with
  | _ num ih =>
    rw [base10_to_n]
    split_ifs with h
    · rw [List.foldl_append, ih (num / base) (Nat.div_lt_self (by omega) hb)]
      simp only [List.foldl_cons, List.foldl_nil]
      exact Nat.div_add_mod' num base
    · simp

theorem b2n_length_le (base : Nat) (hb : 2 ≤ base) :
    ∀ num k, 1 ≤ k → num < base ^ k → (base10_to_n num base).length ≤ k := by
  intro num
  induction num using Nat.strong_induction_on with
  | _ num ih =>
    intro k hk hnum
    rw [base10_to_n]
    split_ifs with h
    · have hk2 : 2 ≤ k := by
        by_contra hcon
        have : k = 1 := by omega
        subst this
        simp at hnum
        omega
      have hdiv : num / base < base ^ (k - 1) := by
        rw [Nat.div_lt_iff_lt_mul (by omega)]
        calc num < base ^ k := hnum
          _ = base ^ (k - 1) * base := by
              rw [← Nat.pow_succ]
              congr 1
              omega
      have := ih (num / base) (Nat.div_lt_self (by omega) hb) (k - 1) (by omega) hdiv
      simp only [List.length_append, List.length_cons, List.length_nil]
      omega
    · simp
      omega

theorem foldl_digits_shift (base : Nat) : ∀ (L : List Nat) (a : Nat),
    L.foldl (fun x d => x * base + d) a =
      a * base ^ L.length + L.foldl (fun x d => x * base + d) 0 := by
  intro L
  induction L with
  | nil => intro a; simp
  | cons d L ih =>
    intro a
    simp only [List.foldl_cons, List.length_cons]
    rw [ih (a * base + d), ih (0 * base + d)]
    ring

theorem foldl_digits_lt (base : Nat) (hb : 1 ≤ base) :
    ∀ L : List Nat, (∀ d ∈ L, d < base) →
      L.foldl (fun x d => x * base + d) 0 < base ^ L.length := by
  intro L
  induction L with
  | nil => intro _; simp
  | cons d L ih =>
    intro h
    have hd : d < base := h d (by simp)
    have hL : ∀ x ∈ L, x < base := fun x hx => h x (by simp [hx])
    simp only [List.foldl_cons, List.length_cons]
    rw [foldl_digits_shift]
    have h1 : L.foldl (fun x d => x * base + d) 0 < base ^ L.length := ih hL
    have h2 : (0 * base + d) * base ^ L.length ≤ (base - 1) * base ^ L.length := by
      apply Nat.mul_le_mul_right
      omega
    calc (0 * base + d) * base ^ L.length + L.foldl (fun x d => x * base + d) 0
        < (0 * base + d) * base ^ L.length + base ^ L.length := by omega
      _ ≤ (base - 1) * base ^ L.length + base ^ L.length := by omega
      _ = base ^ (L.length + 1) := by
          rw [Nat.pow_succ]
          have hb1 : base - 1 + 1 = base := by omega
          calc (base - 1) * base ^ L.length + base ^ L.length
              = (base - 1 + 1) * base ^ L.length := by ring
            _ = base ^ L.length * base := by rw [hb1]; ring

theorem foldl_drop_mod (base : Nat) (hb : 2 ≤ base) (L : List Nat)
    (hd : ∀ d ∈ L, d < base) (k : Nat) (hk : k ≤ L.length) :
    (L.drop (L.length - k)).foldl (fun x d => x * base + d) 0 =
      (L.foldl (fun x d => x * base + d) 0) % base ^ k := by
  have hsplit : L = L.take (L.length - k) ++ L.drop (L.length - k) :=
    (List.take_append_drop _ _).symm
  have hlen : (L.drop (L.length - k)).length = k := by
    rw [List.length_drop]
    omega
  have hfold : L.foldl (fun x d => x * base + d) 0 =
      (L.take (L.length - k)).foldl (fun x d => x * base + d) 0 * base ^ k +
        (L.drop (L.length - k)).foldl (fun x d => x * base + d) 0 := by
    conv_lhs => rw [hsplit]
    rw [List.foldl_append, foldl_digits_shift, hlen]
  have hlt : (L.drop (L.length - k)).foldl (fun x d => x * base + d) 0 < base ^ k := by
    have := foldl_digits_lt base (by omega) (L.drop (L.length - k))
      (fun d hdm => hd d (List.mem_of_mem_drop hdm))
    rwa [hlen] at this
  rw [hfold, Nat.add_comm, Nat.add_mul_mod_self_right, Nat.mod_eq_of_lt hlt]

theorem decode_replicate_one (sides : Nat) :
    ∀ (m : Nat) (rest : List Nat),
      dice_decode sides (List.replicate m 1 ++ rest) = dice_decode sides rest := by
  intro m
  induction m with
  | zero => intro rest; rfl
  | succ m ih =>
    intro rest
    unfold dice_decode at ih ⊢
    simp only [List.replicate_succ, List.cons_append, List.foldl_cons]
    simpa using ih rest

theorem decode_map_succ (sides : Nat) (L : List Nat) :
    dice_decode sides (L.map (fun d => d + 1)) =
      L.foldl (fun x d => x * sides + d) 0 := by
  unfold dice_decode
  rw [List.foldl_map]
  simp

/-- Structural description of idx_to_dicenums valid for every index: the
output is the separator-join of exactly dice_num face values, each in
1..dice_sides, and those faces decode to index modulo the capacity of
the roll space.  For indexes inside the range this is the index itself;
outside it the high-order digits are silently dropped. -/
theorem idx_to_dicenums_spec (index count sides : Nat) (sep : String)
    (hc : 1 ≤ count) (hs : 2 ≤ sides) :
    ∃ ds : List Nat, ds.length = count ∧ (∀ d ∈ ds, 1 ≤ d ∧ d ≤ sides) ∧
      idx_to_dicenums index count sides sep =
        String.intercalate sep (ds.map (fun d => toString d)) ∧
      dice_decode sides ds = index % sides ^ count := by
  have hdig : ∀ d ∈ base10_to_n index sides, d < sides := b2n_digit_lt sides hs index
  have hfold : (base10_to_n index sides).foldl (fun a d => a * sides + d) 0 = index :=
    b2n_foldl sides hs index
  set digits := base10_to_n index sides with hdigits
  set dl := digits.length with hdl
  by_cases hle : dl ≤ count
  · -- the digits fit: the slice keeps a block of leading pad entries
    refine ⟨List.replicate (count - dl) 1 ++ digits.map (fun d => d + 1), ?_, ?_, ?_, ?_⟩
    · simp [← hdl]
      omega
    · intro d hdm
      rcases List.mem_append.mp hdm with h₁ | h₁
      · have : d = 1 := List.eq_of_mem_replicate h₁
        omega
      · rcases List.mem_map.mp h₁ with ⟨x, hx, hxd⟩
        have := hdig x hx
        omega
    · unfold idx_to_dicenums
      simp only [if_neg (by omega : ¬count = 0)]
      congr 1
      have hlenpad : (List.replicate count 1 ++ digits.map (fun d => d + 1)).length = count + dl := by
        simp [← hdl]
      rw [hlenpad]
      have harith : count + dl - count = dl := by omega
      rw [harith]
      have hsplitrep : List.replicate count (1 : Nat) =
          List.replicate dl 1 ++ List.replicate (count - dl) 1 := by
        rw [← List.replicate_add]
        congr 1
        omega
      rw [hsplitrep, List.append_assoc]
      rw [List.drop_append_eq_append_drop]
      simp [← hdl]
    · rw [decode_replicate_one, decode_map_succ]
      rw [hfold]
      have : index < sides ^ count := by
        calc index = digits.foldl (fun a d => a * sides + d) 0 := hfold.symm
          _ < sides ^ dl := foldl_digits_lt sides (by omega) digits hdig
          _ ≤ sides ^ count := Nat.pow_le_pow_right (by omega) hle
      rw [Nat.mod_eq_of_lt this]
  · -- too many digits: the slice silently drops the high-order ones
    refine ⟨(digits.drop (dl - count)).map (fun d => d + 1), ?_, ?_, ?_, ?_⟩
    · simp [← hdl]
      omega
    · intro d hdm
      rcases List.mem_map.mp hdm with ⟨x, hx, hxd⟩
      have := hdig x (List.mem_of_mem_drop hx)
      omega
    · unfold idx_to_dicenums
      simp only [if_neg (by omega : ¬count = 0)]
      congr 1
      have hlenpad : (List.replicate count 1 ++ digits.map (fun d => d + 1)).length = count + dl := by
        simp [← hdl]
      rw [hlenpad]
      have harith : count + dl - count = dl := by omega
      rw [harith]
      have hdrop := @List.drop_append _ (List.replicate count (1 : Nat))
        (digits.map (fun d => d + 1)) (dl - count)
      rw [List.length_replicate] at hdrop
      rw [show count + (dl - count) = dl by omega] at hdrop
      rw [hdrop]
      simp [List.map_drop]
    · rw [decode_map_succ]
      have := foldl_drop_mod sides hs digits hdig count (by omega)
      rw [hfold] at this
      have harith : dl - count = digits.length - count := by rw [← hdl]
      rw [harith]
      exact this

end Wordlist

deriving instance DecidableEq for Except

/-- C3: for every dice_count >= 1, dice_sides >= 2 and every index in
the valid range, idx_to_dicenums yields the separator-join of exactly
dice_count face values, each in 1..dice_sides, and interpreting those
faces back as a base-dice_sides number (subtracting 1 from each digit)
recovers the index. -/
theorem c3_dice_encode_decode_inverse (index count sides : Nat) (sep : String)
    (hc : 1 ≤ count) (hs : 2 ≤ sides) (hi : index < sides ^ count) :
    ∃ ds : List Nat, ds.length = count ∧ (∀ d ∈ ds, 1 ≤ d ∧ d ≤ sides) ∧
      libwordlist.idx_to_dicenums index count sides sep =
        String.intercalate sep (ds.map (fun d => toString d)) ∧
      Wordlist.dice_decode sides ds = index := by
  obtain ⟨ds, h1, h2, h3, h4⟩ := Wordlist.idx_to_dicenums_spec index count sides sep hc hs
  exact ⟨ds, h1, h2, h3, by rw [h4, Nat.mod_eq_of_lt hi]⟩

/-- Witness for C3 at index 100, three six-sided dice. -/
theorem c3_dice_encode_decode_inverse_witness :
    1 ≤ 3 ∧ 2 ≤ 6 ∧ 100 < 6 ^ 3 ∧
    (∃ ds : List Nat, ds.length = 3 ∧ (∀ d ∈ ds, 1 ≤ d ∧ d ≤ 6) ∧
      libwordlist.idx_to_dicenums 100 3 6 "-" =
        String.intercalate "-" (ds.map (fun d => toString d)) ∧
      Wordlist.dice_decode 6 ds = 100) :=
  ⟨by decide, by decide, by decide,
    c3_dice_encode_decode_inverse 100 3 6 "-" (by decide) (by decide) (by decide)⟩

/-- C5 counterexample: index 36 is outside the two-dice range 0..35,
yet idx_to_dicenums raises nothing and returns the ordinary string
1-1, the very encoding of index 0: no InvalidEncodingRangeError kind of
behavior exists in the code. -/
theorem c5_silent_truncation_counterexample :
    libwordlist.idx_to_dicenums 36 2 6 "-" = "1-1" ∧
    libwordlist.idx_to_dicenums 36 2 6 "-" = libwordlist.idx_to_dicenums 0 2 6 "-" := by
  constructor
  · simp [libwordlist.idx_to_dicenums, libwordlist.base10_to_n]
    rfl
  · simp [libwordlist.idx_to_dicenums, libwordlist.base10_to_n]

/-- C5 amended: for every index at or above dice_sides ^ dice_count the
encoder silently truncates the high-order digits, returning the normal
well-formed dice string whose faces decode to index modulo the roll
space capacity; no error is reported. -/
theorem c5_out_of_range_truncates (index count sides : Nat) (sep : String)
    (hc : 1 ≤ count) (hs : 2 ≤ sides) (hi : sides ^ count ≤ index) :
    ∃ ds : List Nat, ds.length = count ∧ (∀ d ∈ ds, 1 ≤ d ∧ d ≤ sides) ∧
      libwordlist.idx_to_dicenums index count sides sep =
        String.intercalate sep (ds.map (fun d => toString d)) ∧
      Wordlist.dice_decode sides ds = index % sides ^ count :=
  Wordlist.idx_to_dicenums_spec index count sides sep hc hs

/-- Witness for C5 amended at out-of-range index 36 with two dice. -/
theorem c5_out_of_range_truncates_witness :
    1 ≤ 2 ∧ 2 ≤ 6 ∧ 6 ^ 2 ≤ 36 ∧
    (∃ ds : List Nat, ds.length = 2 ∧ (∀ d ∈ ds, 1 ≤ d ∧ d ≤ 6) ∧
      libwordlist.idx_to_dicenums 36 2 6 "-" =
        String.intercalate "-" (ds.map (fun d => toString d)) ∧
      Wordlist.dice_decode 6 ds = 36 % 6 ^ 2) :=
  ⟨by decide, by decide, by decide,
    c5_out_of_range_truncates 36 2 6 "-" (by decide) (by decide) (by decide)⟩

/-- C7 failing input: the substitution table maps the lowercase
u-umlaut to the uppercase digraph UE, so case is not preserved there,
while the umlaut-a and sharp-s examples fold as described. -/
theorem c7_normalize_umlaut_u_uppercase :
    libwordlist.normalize "ü" = "UE" ∧ libwordlist.normalize "ü" ≠ "ue" ∧
    libwordlist.normalize "ä" = "ae" ∧ libwordlist.normalize "äß" = "aess" := by
  refine ⟨by decide, by decide, by decide, by decide⟩

/-- C8: filter_chars yields exactly the input terms all of whose
characters belong to allowed, each unchanged and in input order, and
passes every term through unchanged when allowed is None. -/
theorem c8_filter_chars_exact (terms : List String) (allowed : List Char) :
    libwordlist.filter_chars terms (some allowed) =
      terms.filter (fun t => t.data.all (fun c => allowed.contains c)) ∧
    libwordlist.filter_chars terms none = terms := by
  constructor
  · unfold libwordlist.filter_chars
    apply List.filter_congr
    intro t _
    by_cases h : ∀ c ∈ t.data, allowed.contains c = true
    · have hself : t.data.filter (fun x => allowed.contains x) = t.data :=
        List.filter_eq_self.mpr h
      rw [hself]
      have h2 : t.data.all (fun c => allowed.contains c) = true := List.all_eq_true.mpr h
      rw [h2, decide_eq_true (Nat.le_refl _)]
    · have hlt : (t.data.filter (fun x => allowed.contains x)).length < t.data.length := by
        rcases Nat.lt_or_ge (t.data.filter (fun x => allowed.contains x)).length
          t.data.length with h1 | h1
        · exact h1
        · exact absurd
            (List.filter_length_eq_length.mp
              (Nat.le_antisymm (List.length_filter_le _ _) h1)) h
      have h1 : decide (t.data.length ≤
          (t.data.filter (fun x => allowed.contains x)).length) = false :=
        decide_eq_false (Nat.not_le.mpr hlt)
      have h2 : t.data.all (fun c => allowed.contains c) = false := by
        rw [Bool.eq_false_iff]
        intro hall
        exact h (List.all_eq_true.mp hall)
      rw [h1, h2]
  · rfl

/-- C10: the wordlist_gen variant of min_width_iter yields exactly the
same sequence as the libwordlist variant with shuffle_max_width set to
False, namely the first num terms of the pool sorted by the key
(length, lexicographic value). -/
theorem c10_wordlist_gen_refines_libwordlist (iterator : List String) (num : Nat)
    (shuffled : List String) :
    libwordlist.min_width_iter iterator num false shuffled =
      some (wordlist_gen.min_width_iter iterator num) ∧
    wordlist_gen.min_width_iter iterator num =
      (iterator.insertionSort Wordlist.keyRel).take num :=
  ⟨rfl, rfl⟩

/-- C4 counterexample: with one unique term and requested length two,
generate_wordlist raises the generic ValueError, not any distinct
InsufficientTermsError, which does not exist anywhere in src. -/
theorem c4_value_error_counterexample :
    wordlist_gen.generate_wordlist ["a"] 2 =
      Except.error (wordlist_gen.PyError.valueError
        "Wordlist too short: at least 2 unique terms required.") ∧
    wordlist_gen.generate_wordlist ["a"] 2 ≠
      Except.error wordlist_gen.PyError.insufficientTermsError := by
  refine ⟨rfl, by decide⟩

/-- C4 amended: when the pool holds fewer unique terms than the
requested length, generate_wordlist fails with the generic ValueError
carrying the wordlist-too-short message and produces no terms, and
libwordlist.min_width_iter fails with IndexError (modelled as none)
whenever the request exceeds the pool size; selection is
all-or-nothing. -/
theorem c4_insufficient_pool_generic_errors :
    (∀ (input_terms : List String) (n : Nat), (input_terms.dedup).length < n →
      wordlist_gen.generate_wordlist input_terms n =
        Except.error (wordlist_gen.PyError.valueError
          ("Wordlist too short: at least " ++ toString n ++ " unique terms required."))) ∧
    (∀ (pool : List String) (n : Nat) (s : List String), pool.length < n →
      libwordlist.min_width_iter pool n true s = none) := by
  constructor
  · intro input n h
    unfold wordlist_gen.generate_wordlist
    rw [if_pos]
    rwa [List.length_insertionSort]
  · intro pool n s h
    have hpy : Wordlist.pyGet (libwordlist.sortTerms pool) ((n : Int) - 1) = none := by
      unfold Wordlist.pyGet
      rw [if_pos (by omega : (0 : Int) ≤ (n : Int) - 1)]
      apply List.get?_eq_none.mpr
      have hlen : (libwordlist.sortTerms pool).length = pool.length :=
        List.length_insertionSort _ _
      rw [hlen]
      omega
    simp [libwordlist.min_width_iter, hpy]

/-- Witness for C4 amended: two unique terms, requested length three. -/
theorem c4_insufficient_pool_generic_errors_witness :
    (["a", "b"].dedup.length < 3 ∧
      wordlist_gen.generate_wordlist ["a", "b"] 3 =
        Except.error (wordlist_gen.PyError.valueError
          ("Wordlist too short: at least " ++ toString 3 ++ " unique terms required."))) ∧
    (["a", "b"].length < 3 ∧ libwordlist.min_width_iter ["a", "b"] 3 true [] = none) :=
  ⟨⟨by decide, c4_insufficient_pool_generic_errors.1 ["a", "b"] 3 (by decide)⟩,
    ⟨by decide, c4_insufficient_pool_generic_errors.2 ["a", "b"] 3 [] (by decide)⟩⟩

namespace Wordlist

theorem keyRel_length_le {a b : String} (h : keyRel a b) : a.length ≤ b.length := by
  unfold keyRel termKeyLe at h
  by_cases h1 : a.length < b.length
  · omega
  · by_cases h2 : b.length < a.length
    · rw [if_neg h1, if_pos h2] at h
      exact absurd h (by simp)
    · omega

theorem pyStrip_length_le (s : String) : (pyStrip s).length ≤ s.length := by
  show (((s.data.dropWhile Char.isWhitespace).reverse.dropWhile
    Char.isWhitespace).reverse).length ≤ s.data.length
  rw [List.length_reverse]
  calc ((s.data.dropWhile Char.isWhitespace).reverse.dropWhile Char.isWhitespace).length
      ≤ (s.data.dropWhile Char.isWhitespace).reverse.length :=
        (List.dropWhile_sublist _).length_le
    _ = (s.data.dropWhile Char.isWhitespace).length := List.length_reverse _
    _ ≤ s.data.length := (List.dropWhile_sublist _).length_le

theorem filter_lt_eq_takeWhile (w : Nat) :
    ∀ l : List String, List.Pairwise (fun a b : String => a.length ≤ b.length) l →
      l.filter (fun x => decide (x.length < w)) =
        l.takeWhile (fun x => decide (x.length < w)) := by
  intro l
  induction l with
  | nil => intro _; rfl
  | cons a tl ih =>
    intro hp
    by_cases h : a.length < w
    · rw [List.filter_cons, List.takeWhile_cons]
      rw [if_pos (by simpa using h), if_pos (by simpa using h)]
      rw [ih hp.of_cons]
    · rw [List.filter_cons, List.takeWhile_cons]
      rw [if_neg (by simpa using h), if_neg (by simpa using h)]
      apply List.filter_eq_nil_iff.mpr
      intro x hx
      have := List.rel_of_pairwise_cons hp hx
      simp only [decide_eq_true_eq]
      omega

theorem length_filter_lt_add_eq (w : Nat) (l : List String) :
    (l.filter (fun x => decide (x.length < w))).length +
      (l.filter (fun x => decide (x.length = w))).length =
      (l.filter (fun x => decide (x.length ≤ w))).length := by
  induction l with
  | nil => rfl
  | cons a tl ih =>
    by_cases h1 : a.length < w
    · simp only [List.filter_cons]
      rw [if_pos (by simpa using h1), if_neg (by simp; omega), if_pos (by simp; omega)]
      simp only [List.length_cons]
      omega
    · by_cases h2 : a.length = w
      · simp only [List.filter_cons]
        rw [if_neg (by simpa using h1), if_pos (by simpa using h2), if_pos (by simp; omega)]
        simp only [List.length_cons]
        omega
      · simp only [List.filter_cons]
        rw [if_neg (by simpa using h1), if_neg (by simpa using h2), if_neg (by simp; omega)]
        exact ih

theorem forall₂_strip_le (l : List String) :
    List.Forall₂ (fun a b : String => a.length ≤ b.length) (l.map pyStrip) l := by
  induction l with
  | nil => exact List.Forall₂.nil
  | cons a tl ih => exact List.Forall₂.cons (pyStrip_length_le a) ih

theorem forall₂_of_bound (w : Nat) : ∀ (l₁ l₂ : List String),
    (∀ x ∈ l₁, x.length ≤ w) → (∀ y ∈ l₂, w ≤ y.length) → l₁.length = l₂.length →
    List.Forall₂ (fun a b : String => a.length ≤ b.length) l₁ l₂ := by
  intro l₁
  induction l₁ with
  | nil =>
    intro l₂ _ _ hlen
    cases l₂ with
    | nil => exact List.Forall₂.nil
    | cons b tb => simp at hlen
  | cons a tl ih =>
    intro l₂ h₁ h₂ hlen
    cases l₂ with
    | nil => simp at hlen
    | cons b tb =>
      refine List.Forall₂.cons ((h₁ a (by simp)).trans (h₂ b (by simp))) (ih tb ?_ ?_ ?_)
      · intro x hx; exact h₁ x (by simp [hx])
      · intro y hy; exact h₂ y (by simp [hy])
      · simpa using hlen

theorem sumLen_le_of_forall₂ : ∀ {l₁ l₂ : List String},
    List.Forall₂ (fun a b : String => a.length ≤ b.length) l₁ l₂ → sumLen l₁ ≤ sumLen l₂ := by
  intro l₁ l₂ h
  induction h with
  | nil => exact Nat.le_refl _
  | cons hab htail ih =>
    unfold sumLen at ih ⊢
    simp only [List.map_cons, List.sum_cons]
    omega

theorem sum_take_cons_le (a : Nat) (L : List Nat) (ha : ∀ x ∈ L, a ≤ x) :
    ∀ m, m ≤ L.length → ((a :: L).take m).sum ≤ (L.take m).sum := by
  intro m hm
  cases m with
  | zero => simp
  | succ m' =>
    rw [List.take_succ_cons, List.sum_cons]
    have hlt : m' < L.length := by omega
    rw [List.sum_take_succ L m' hlt]
    have hle : a ≤ L[m'] := ha _ (List.getElem_mem hlt)
    omega

theorem sum_take_le_sublist : ∀ {L T : List Nat}, List.Sublist T L →
    List.Pairwise (· ≤ ·) L → (L.take T.length).sum ≤ T.sum := by
  intro L T h
  induction h with
  | slnil => intro _; simp
  | cons a hsub ih =>
    intro hP
    have step := sum_take_cons_le a _ (fun x hx => List.rel_of_pairwise_cons hP hx)
      _ hsub.length_le
    exact step.trans (ih hP.of_cons)
  | cons₂ a hsub ih =>
    intro hP
    rw [List.length_cons, List.take_succ_cons, List.sum_cons, List.sum_cons]
    exact Nat.add_le_add_left (ih hP.of_cons) a

theorem sumLen_take_le_subset (L : List String)
    (hsort : List.Pairwise (fun a b : String => a.length ≤ b.length) L)
    (S : List String) (hS : S.Nodup) (hsub : ∀ x ∈ S, x ∈ L) :
    sumLen (L.take S.length) ≤ sumLen S := by
  obtain ⟨t, htp, hts⟩ := List.subperm_of_subset hS (fun x hx => hsub x hx)
  have hlen : t.length = S.length := htp.length_eq
  have hsum : (t.map (fun s : String => s.length)).sum =
      (S.map (fun s : String => s.length)).sum :=
    (htp.map (fun s : String => s.length)).sum_eq
  have hmap : List.Sublist (t.map (fun s : String => s.length))
      (L.map (fun s : String => s.length)) :=
    hts.map _
  have hpair : List.Pairwise (· ≤ ·) (L.map (fun s : String => s.length)) :=
    List.pairwise_map.mpr hsort
  have hkey := sum_take_le_sublist hmap hpair
  rw [List.length_map, ← List.map_take, hlen] at hkey
  unfold sumLen
  exact hkey.trans (le_of_eq hsum)

/-- Core decomposition of one run of min_width_iter with 1 <= n <= |P|
on a duplicate-free pool: the yielded list has exactly n entries and is
pointwise no longer than the first n entries of the sorted pool. -/
theorem min_width_selection_core
    (P : List String) (n : Nat) (b : String) (s : List String)
    (hnd : P.Nodup) (hn : n ≤ P.length) (hn1 : 1 ≤ n)
    (hb : (libwordlist.sortTerms P).get? (n - 1) = some b)
    (hs : s.Perm (libwordlist.max_width_entries (libwordlist.sortTerms P) b.length)) :
    ((libwordlist.lt_width_entries (libwordlist.sortTerms P) b.length ++ s).take n).length
        = n ∧
    List.Forall₂ (fun a c : String => a.length ≤ c.length)
      ((libwordlist.lt_width_entries (libwordlist.sortTerms P) b.length ++ s).take n)
      ((libwordlist.sortTerms P).take n) := by
  set T := libwordlist.sortTerms P with hTdef
  have hperm : T.Perm P := List.perm_insertionSort _ _
  have hTnd : T.Nodup := hperm.nodup_iff.mpr hnd
  have hTsort : List.Pairwise keyRel T := List.sorted_insertionSort _ _
  have hlsort : List.Pairwise (fun a c : String => a.length ≤ c.length) T :=
    List.Pairwise.imp (fun h => keyRel_length_le h) hTsort
  have hTlen : T.length = P.length := List.length_insertionSort _ _
  set w := b.length with hwdef
  set T₁ := T.takeWhile (fun x => decide (x.length < w)) with hT1def
  set T₂ := T.dropWhile (fun x => decide (x.length < w)) with hT2def
  have hsplit : T₁ ++ T₂ = T :=
    List.takeWhile_append_dropWhile (fun x => decide (x.length < w)) T
  set K := T₁.length with hKdef
  have hT1lt : ∀ x ∈ T₁, x.length < w := by
    intro x hx
    have := List.mem_takeWhile_imp hx
    simpa using this
  have hbnotp : ¬(b.length < w) := by omega
  have hb2 : T[n - 1]? = some b := by
    rw [← List.get?_eq_getElem?]
    exact hb
  have htake_eq : T.take n = T.take (n - 1) ++ [b] := by
    have h1 : T.take ((n - 1) + 1) = T.take (n - 1) ++ T[n - 1]?.toList := List.take_succ
    rw [hb2] at h1
    rw [show (n - 1) + 1 = n from by omega] at h1
    simpa using h1
  have hbmem : b ∈ T.take n := by
    rw [htake_eq]
    simp
  have htakele : ∀ x ∈ T.take n, x.length ≤ w := by
    intro x hx
    rw [htake_eq] at hx
    rcases List.mem_append.mp hx with h1 | h1
    · have hsub : List.Sublist (T.take (n - 1) ++ [b]) T := by
        rw [← htake_eq]
        exact List.take_sublist _ _
      have hpw := List.Pairwise.sublist hsub hlsort
      exact (List.pairwise_append.mp hpw).2.2 x h1 b (by simp)
    · have : x = b := by simpa using h1
      subst this
      exact Nat.le_refl _
  have hfilT : T.filter (fun x => decide (x.length < w)) = T₁ :=
    filter_lt_eq_takeWhile w T hlsort
  have hKlt : K < n := by
    by_contra hcon
    push_neg at hcon
    have heq : T.take n = T₁.take n := by
      conv_lhs => rw [← hsplit]
      rw [List.take_append_eq_append_take, show n - T₁.length = 0 from by omega,
        List.take_zero, List.append_nil]
    have hb1 : b ∈ T₁ := (List.take_sublist n T₁).subset (heq ▸ hbmem)
    exact absurd (hT1lt b hb1) hbnotp
  have hT2ge : ∀ x ∈ T₂, w ≤ x.length := by
    intro x hx
    by_contra hcon
    push_neg at hcon
    have hxT : x ∈ T := hsplit ▸ List.mem_append.mpr (Or.inr hx)
    have hx1 : x ∈ T₁ := by
      rw [← hfilT]
      exact List.mem_filter.mpr ⟨hxT, by simpa using hcon⟩
    have hdisj : T₁.Disjoint T₂ := by
      have h := hTnd
      rw [← hsplit] at h
      exact List.disjoint_of_nodup_append h
    exact hdisj hx1 hx
  have hlen_split : K + T₂.length = T.length := by
    have := congrArg List.length hsplit
    simpa using this
  set Seg := T₂.take (n - K) with hSegdef
  have hSeglen : Seg.length = n - K := by
    rw [List.length_take]
    omega
  have hTake : T.take n = T₁ ++ Seg := by
    conv_lhs => rw [← hsplit]
    rw [List.take_append_eq_append_take]
    congr 1
    exact List.take_of_length_le (by omega)
  have hSegw : ∀ x ∈ Seg, x.length = w := by
    intro x hx
    have h1 : w ≤ x.length := hT2ge x (List.take_subset _ _ hx)
    have h2 : x.length ≤ w := htakele x (by rw [hTake]; exact List.mem_append.mpr (Or.inr hx))
    omega
  have hmapsplit : T.map pyStrip = T₁.map pyStrip ++ T₂.map pyStrip := by
    rw [← List.map_append, hsplit]
  set A := T₁.map pyStrip with hAdef
  set D := (T₂.map pyStrip).filter (fun x => decide (x.length < w)) with hDdef
  have hAlen : A.length = K := by
    rw [hAdef, List.length_map]
  have hlt : libwordlist.lt_width_entries T w = A ++ D := by
    unfold libwordlist.lt_width_entries
    rw [hmapsplit, List.filter_append]
    congr 1
    apply List.filter_eq_self.mpr
    intro a ha
    rcases List.mem_map.mp ha with ⟨x, hxmem, hxeq⟩
    have h1 := pyStrip_length_le x
    have h2 := hT1lt x hxmem
    rw [← hxeq]
    simp only [decide_eq_true_eq]
    omega
  have hslen : s.length =
      ((T₂.map pyStrip).filter (fun x => decide (x.length = w))).length := by
    rw [hs.length_eq]
    unfold libwordlist.max_width_entries
    rw [hmapsplit, List.filter_append, List.length_append]
    have hz : (A.filter (fun x => decide (x.length = w))).length = 0 := by
      rw [List.length_eq_zero]
      apply List.filter_eq_nil_iff.mpr
      intro x hx
      rcases List.mem_map.mp hx with ⟨y, hymem, hyeq⟩
      have h1 := pyStrip_length_le y
      have h2 := hT1lt y hymem
      rw [← hyeq]
      simp only [decide_eq_true_eq]
      omega
    omega
  have hcount : n - K ≤ (D ++ s).length := by
    rw [List.length_append, hslen]
    have hDlen : D.length =
        ((T₂.map pyStrip).filter (fun x => decide (x.length < w))).length := by
      rw [hDdef]
    have hsplit2 := length_filter_lt_add_eq w (T₂.map pyStrip)
    have hle : n - K ≤
        ((T₂.map pyStrip).filter (fun x => decide (x.length ≤ w))).length := by
      have hsub : List.Sublist (Seg.map pyStrip) (T₂.map pyStrip) :=
        (List.take_sublist _ _).map _
      have hall : (Seg.map pyStrip).filter (fun x => decide (x.length ≤ w))
          = Seg.map pyStrip := by
        apply List.filter_eq_self.mpr
        intro a ha
        rcases List.mem_map.mp ha with ⟨y, hymem, hyeq⟩
        have h1 := pyStrip_length_le y
        have h2 := hSegw y hymem
        rw [← hyeq]
        simp only [decide_eq_true_eq]
        omega
      have hsubf := (hsub.filter (fun x => decide (x.length ≤ w))).length_le
      rw [hall, List.length_map, hSeglen] at hsubf
      exact hsubf
    omega
  have hres : (libwordlist.lt_width_entries T w ++ s).take n
      = A ++ (D ++ s).take (n - K) := by
    rw [hlt, List.append_assoc, List.take_append_eq_append_take, hAlen]
    congr 1
    exact List.take_of_length_le (by omega)
  have htklen : ((D ++ s).take (n - K)).length = n - K := by
    rw [List.length_take]
    omega
  constructor
  · rw [hres, List.length_append, hAlen, htklen]
    omega
  · rw [hres, hTake]
    refine List.rel_append (forall₂_strip_le T₁) ?_
    apply forall₂_of_bound w
    · intro x hx
      have hx' := List.take_subset _ _ hx
      rcases List.mem_append.mp hx' with h1 | h1
      · rcases List.mem_filter.mp h1 with ⟨_, hp⟩
        simp only [decide_eq_true_eq] at hp
        omega
      · have hxe : x ∈ libwordlist.max_width_entries T w := hs.subset h1
        rcases List.mem_filter.mp hxe with ⟨_, hp⟩
        simp only [decide_eq_true_eq] at hp
        omega
    · intro y hy
      exact Nat.le_of_eq (hSegw y hy).symm
    · rw [htklen, hSeglen]

end Wordlist

/-- C9: whatever two outcomes the random shuffle of the maximum-width
tier produces, shuffle_max_width_items yields the same multiset of
terms (the outcomes are permutations of one another), and the terms of
length strictly below the maximum width form, in both outcomes, the
same subsequence in the original input order; when the width cannot be
computed (empty list), both outcomes fail identically. -/
theorem c9_shuffle_only_permutes (word_list : List String) (mw : Option Nat)
    (s₁ s₂ : List String)
    (h₁ : ∀ w, libwordlist.eff_max_width word_list mw = some w →
      s₁.Perm (libwordlist.max_width_entries word_list w))
    (h₂ : ∀ w, libwordlist.eff_max_width word_list mw = some w →
      s₂.Perm (libwordlist.max_width_entries word_list w)) :
    (libwordlist.shuffle_max_width_items word_list mw s₁ = none ∧
      libwordlist.shuffle_max_width_items word_list mw s₂ = none) ∨
    (∃ w l₁ l₂, libwordlist.eff_max_width word_list mw = some w ∧
      libwordlist.shuffle_max_width_items word_list mw s₁ = some l₁ ∧
      libwordlist.shuffle_max_width_items word_list mw s₂ = some l₂ ∧
      l₁.Perm l₂ ∧
      l₁.filter (fun x => decide (x.length < w)) =
        libwordlist.lt_width_entries word_list w ∧
      l₂.filter (fun x => decide (x.length < w)) =
        libwordlist.lt_width_entries word_list w) := by
  cases heff : libwordlist.eff_max_width word_list mw with
  | none =>
    left
    constructor <;> simp [libwordlist.shuffle_max_width_items, heff]
  | some w =>
    right
    have key : ∀ s, s.Perm (libwordlist.max_width_entries word_list w) →
        (libwordlist.lt_width_entries word_list w ++ s).filter
          (fun x => decide (x.length < w)) =
          libwordlist.lt_width_entries word_list w := by
      intro s hs
      rw [List.filter_append]
      have hl : (libwordlist.lt_width_entries word_list w).filter
          (fun x => decide (x.length < w)) = libwordlist.lt_width_entries word_list w := by
        apply List.filter_eq_self.mpr
        intro a ha
        unfold libwordlist.lt_width_entries at ha
        exact (List.mem_filter.mp ha).2
      have hr : s.filter (fun x => decide (x.length < w)) = [] := by
        apply List.filter_eq_nil_iff.mpr
        intro a ha
        have ham : a ∈ libwordlist.max_width_entries word_list w := hs.mem_iff.mp ha
        have haw := (List.mem_filter.mp ham).2
        simp only [decide_eq_true_eq] at haw ⊢
        omega
      rw [hl, hr, List.append_nil]
    refine ⟨w, libwordlist.lt_width_entries word_list w ++ s₁,
      libwordlist.lt_width_entries word_list w ++ s₂, rfl, ?_, ?_, ?_, ?_, ?_⟩
    · simp [libwordlist.shuffle_max_width_items, heff]
    · simp [libwordlist.shuffle_max_width_items, heff]
    · exact List.Perm.append_left _ ((h₁ w heff).trans (h₂ w heff).symm)
    · exact key s₁ (h₁ w heff)
    · exact key s₂ (h₂ w heff)

/-- Witness for C9: pool with one short and two maximum-width terms,
the two shuffle outcomes being the two orders of the tier. -/
theorem c9_shuffle_only_permutes_witness :
    (libwordlist.shuffle_max_width_items ["a", "bb", "cc"] none ["cc", "bb"] = none ∧
      libwordlist.shuffle_max_width_items ["a", "bb", "cc"] none ["bb", "cc"] = none) ∨
    (∃ w l₁ l₂, libwordlist.eff_max_width ["a", "bb", "cc"] none = some w ∧
      libwordlist.shuffle_max_width_items ["a", "bb", "cc"] none ["cc", "bb"] = some l₁ ∧
      libwordlist.shuffle_max_width_items ["a", "bb", "cc"] none ["bb", "cc"] = some l₂ ∧
      l₁.Perm l₂ ∧
      l₁.filter (fun x => decide (x.length < w)) =
        libwordlist.lt_width_entries ["a", "bb", "cc"] w ∧
      l₂.filter (fun x => decide (x.length < w)) =
        libwordlist.lt_width_entries ["a", "bb", "cc"] w) :=
  c9_shuffle_only_permutes ["a", "bb", "cc"] none ["cc", "bb"] ["bb", "cc"]
    (fun w hw => by
      have h2 : (some 2 : Option Nat) = some w :=
        (show libwordlist.eff_max_width ["a", "bb", "cc"] none = some 2 from rfl).symm.trans hw
      injection h2 with h
      subst h
      decide)
    (fun w hw => by
      have h2 : (some 2 : Option Nat) = some w :=
        (show libwordlist.eff_max_width ["a", "bb", "cc"] none = some 2 from rfl).symm.trans hw
      injection h2 with h
      subst h
      decide)

/-- Evaluation of min_width_iter in the successful shuffled case: when
the boundary entry exists, the generator yields the first num entries
of the below-boundary entries followed by the shuffled tier. -/
theorem min_width_iter_eval (P : List String) (n : Nat) (s : List String) (b : String)
    (hb : Wordlist.pyGet (libwordlist.sortTerms P) ((n : Int) - 1) = some b) :
    libwordlist.min_width_iter P n true s =
      some ((libwordlist.lt_width_entries (libwordlist.sortTerms P) b.length ++ s).take n) := by
  simp only [libwordlist.min_width_iter]
  rw [if_pos trivial, hb]
  rfl

/-- C1: the terms yielded by min_width_iter have a total character
width no greater than the total width of every other n-element
duplicate-free subset of the pool, for every outcome of the tie-break
shuffle. -/
theorem c1_min_width_selection_minimal
    (P : List String) (n : Nat) (b : String) (s l S : List String)
    (hnd : P.Nodup) (hne : ∀ x ∈ P, x ≠ "") (hn : n ≤ P.length)
    (hb : Wordlist.pyGet (libwordlist.sortTerms P) ((n : Int) - 1) = some b)
    (hs : s.Perm (libwordlist.max_width_entries (libwordlist.sortTerms P) b.length))
    (hres : libwordlist.min_width_iter P n true s = some l)
    (hS1 : S.Nodup) (hS2 : ∀ x ∈ S, x ∈ P) (hS3 : S.length = n) :
    Wordlist.sumLen l ≤ Wordlist.sumLen S := by
  have hl : l =
      (libwordlist.lt_width_entries (libwordlist.sortTerms P) b.length ++ s).take n := by
    have := (min_width_iter_eval P n s b hb).symm.trans hres
    exact (Option.some.inj this).symm
  rcases Nat.eq_zero_or_pos n with hn0 | hn1
  · subst hn0
    rw [hl, List.take_zero]
    simp [Wordlist.sumLen]
  · have hb' : (libwordlist.sortTerms P).get? (n - 1) = some b := by
      unfold Wordlist.pyGet at hb
      rw [if_pos (by omega : (0 : Int) ≤ (n : Int) - 1)] at hb
      rw [show ((n : Int) - 1).toNat = n - 1 from by omega] at hb
      exact hb
    obtain ⟨hlen, hfa⟩ := Wordlist.min_width_selection_core P n b s hnd hn hn1 hb' hs
    have h1 : Wordlist.sumLen l ≤ Wordlist.sumLen ((libwordlist.sortTerms P).take n) := by
      rw [hl]
      exact Wordlist.sumLen_le_of_forall₂ hfa
    have hsort : List.Pairwise (fun a c : String => a.length ≤ c.length)
        (libwordlist.sortTerms P) :=
      List.Pairwise.imp (fun h => Wordlist.keyRel_length_le h)
        (List.sorted_insertionSort _ _)
    have h2 : Wordlist.sumLen ((libwordlist.sortTerms P).take n) ≤ Wordlist.sumLen S := by
      have hkey := Wordlist.sumLen_take_le_subset (libwordlist.sortTerms P) hsort S hS1
        (fun x hx => (List.perm_insertionSort _ _).mem_iff.mpr (hS2 x hx))
      rw [hS3] at hkey
      exact hkey
    exact h1.trans h2

/-- Witness for C1: three-term pool, two requested, shuffled tier in
reversed order; the yielded selection has width 3, every other
two-element subset has width at least 3 (here: 4). -/
theorem c1_min_width_selection_minimal_witness :
    (["a", "bb", "cc"] : List String).Nodup ∧
    (∀ x ∈ (["a", "bb", "cc"] : List String), x ≠ "") ∧
    2 ≤ (["a", "bb", "cc"] : List String).length ∧
    Wordlist.pyGet (libwordlist.sortTerms ["a", "bb", "cc"]) (((2 : Nat) : Int) - 1)
      = some "bb" ∧
    (["cc", "bb"] : List String).Perm
      (libwordlist.max_width_entries (libwordlist.sortTerms ["a", "bb", "cc"])
        "bb".length) ∧
    libwordlist.min_width_iter ["a", "bb", "cc"] 2 true ["cc", "bb"] = some ["a", "cc"] ∧
    (["bb", "cc"] : List String).Nodup ∧
    (∀ x ∈ (["bb", "cc"] : List String), x ∈ (["a", "bb", "cc"] : List String)) ∧
    (["bb", "cc"] : List String).length = 2 ∧
    Wordlist.sumLen ["a", "cc"] ≤ Wordlist.sumLen ["bb", "cc"] :=
  ⟨by decide, by decide, by decide, by decide, by decide, by decide, by decide, by decide,
    by decide,
    c1_min_width_selection_minimal ["a", "bb", "cc"] 2 "bb" ["cc", "bb"] ["a", "cc"]
      ["bb", "cc"] (by decide) (by decide) (by decide) (by decide) (by decide) (by decide)
      (by decide) (by decide) (by decide)⟩

/-- C2 counterexample: on the empty pool with n = 0 (which satisfies
n <= pool size), the generator raises IndexError at all_terms[-1]
(modelled as none) instead of yielding exactly zero terms. -/
theorem c2_empty_pool_counterexample :
    libwordlist.min_width_iter [] 0 true [] = none ∧
    libwordlist.min_width_iter [] 0 true [] ≠ some [] := ⟨rfl, by decide⟩

/-- C2 amended: for every non-empty pool of distinct, trimmed, non-empty
terms and every n at most the pool size, min_width_iter yields exactly
n pairwise distinct terms drawn from the pool, for every outcome of the
tie-break shuffle. -/
theorem c2_min_width_yields_n_unique_terms
    (P : List String) (n : Nat) (b : String) (s : List String)
    (hnd : P.Nodup) (hne : ∀ x ∈ P, x ≠ "")
    (htrim : ∀ x ∈ P, Wordlist.pyStrip x = x)
    (hP : P ≠ []) (hn : n ≤ P.length)
    (hb : Wordlist.pyGet (libwordlist.sortTerms P) ((n : Int) - 1) = some b)
    (hs : s.Perm (libwordlist.max_width_entries (libwordlist.sortTerms P) b.length)) :
    ∃ l, libwordlist.min_width_iter P n true s = some l ∧
      l.length = n ∧ l.Nodup ∧ ∀ x ∈ l, x ∈ P := by
  have hperm : (libwordlist.sortTerms P).Perm P := List.perm_insertionSort _ _
  have hTnd : (libwordlist.sortTerms P).Nodup := hperm.nodup_iff.mpr hnd
  have hstrip : (libwordlist.sortTerms P).map Wordlist.pyStrip = libwordlist.sortTerms P := by
    have hid : ∀ x ∈ libwordlist.sortTerms P, Wordlist.pyStrip x = x :=
      fun x hx => htrim x (hperm.subset hx)
    calc (libwordlist.sortTerms P).map Wordlist.pyStrip
        = (libwordlist.sortTerms P).map id := List.map_congr_left hid
      _ = libwordlist.sortTerms P := List.map_id _
  have hltT : libwordlist.lt_width_entries (libwordlist.sortTerms P) b.length =
      (libwordlist.sortTerms P).filter (fun x => decide (x.length < b.length)) := by
    unfold libwordlist.lt_width_entries
    rw [hstrip]
  have hmaxT : libwordlist.max_width_entries (libwordlist.sortTerms P) b.length =
      (libwordlist.sortTerms P).filter (fun x => decide (x.length = b.length)) := by
    unfold libwordlist.max_width_entries
    rw [hstrip]
  have hnd2 : (libwordlist.lt_width_entries (libwordlist.sortTerms P) b.length ++ s).Nodup := by
    apply List.Nodup.append
    · rw [hltT]
      exact hTnd.filter _
    · exact hs.nodup_iff.mpr (by rw [hmaxT]; exact hTnd.filter _)
    · intro x hx1 hx2
      rw [hltT] at hx1
      have h1 := (List.mem_filter.mp hx1).2
      have hx2' := hs.subset hx2
      rw [hmaxT] at hx2'
      have h2 := (List.mem_filter.mp hx2').2
      simp only [decide_eq_true_eq] at h1 h2
      omega
  refine ⟨(libwordlist.lt_width_entries (libwordlist.sortTerms P) b.length ++ s).take n,
    min_width_iter_eval P n s b hb, ?_, ?_, ?_⟩
  · rcases Nat.eq_zero_or_pos n with hn0 | hn1
    · subst hn0
      rw [List.take_zero]
      rfl
    · have hb' : (libwordlist.sortTerms P).get? (n - 1) = some b := by
        unfold Wordlist.pyGet at hb
        rw [if_pos (by omega : (0 : Int) ≤ (n : Int) - 1)] at hb
        rw [show ((n : Int) - 1).toNat = n - 1 from by omega] at hb
        exact hb
      exact (Wordlist.min_width_selection_core P n b s hnd hn hn1 hb' hs).1
  · exact List.Nodup.sublist (List.take_sublist _ _) hnd2
  · intro x hx
    have hx' := List.take_subset _ _ hx
    rcases List.mem_append.mp hx' with h1 | h1
    · rw [hltT] at h1
      exact hperm.subset (List.mem_filter.mp h1).1
    · have hx2 := hs.subset h1
      rw [hmaxT] at hx2
      exact hperm.subset (List.mem_filter.mp hx2).1

/-- Witness for C2 amended at a three-term pool with n = 2. -/
theorem c2_min_width_yields_n_unique_terms_witness :
    (["a", "bb", "cc"] : List String).Nodup ∧
    (∀ x ∈ (["a", "bb", "cc"] : List String), x ≠ "") ∧
    (∀ x ∈ (["a", "bb", "cc"] : List String), Wordlist.pyStrip x = x) ∧
    (["a", "bb", "cc"] : List String) ≠ [] ∧
    2 ≤ (["a", "bb", "cc"] : List String).length ∧
    Wordlist.pyGet (libwordlist.sortTerms ["a", "bb", "cc"]) (((2 : Nat) : Int) - 1)
      = some "bb" ∧
    (["bb", "cc"] : List String).Perm
      (libwordlist.max_width_entries (libwordlist.sortTerms ["a", "bb", "cc"])
        "bb".length) ∧
    (∃ l, libwordlist.min_width_iter ["a", "bb", "cc"] 2 true ["bb", "cc"] = some l ∧
      l.length = 2 ∧ l.Nodup ∧ ∀ x ∈ l, x ∈ (["a", "bb", "cc"] : List String)) :=
  ⟨by decide, by decide, by decide, by decide, by decide, by decide, by decide,
    c2_min_width_yields_n_unique_terms ["a", "bb", "cc"] 2 "bb" ["bb", "cc"]
      (by decide) (by decide) (by decide) (by decide) (by decide) (by decide) (by decide)⟩

namespace Wordlist

theorem isPrefixOf_le : ∀ {x y : List Char}, x.isPrefixOf y = true → lexLe x y = true := by
  intro x
  induction x with
  | nil => intro y _; rfl
  | cons a as ih =>
    intro y h
    cases y with
    | nil => simp [List.isPrefixOf] at h
    | cons c cs =>
      simp only [List.isPrefixOf, Bool.and_eq_true, beq_iff_eq] at h
      obtain ⟨rfl, h2⟩ := h
      rw [lexLe_cons_cons_self]
      exact ih h2

theorem isPrefixOf_sandwich : ∀ {x v y : List Char}, lexLe x v = true → lexLe v y = true →
    x.isPrefixOf y = true → x.isPrefixOf v = true := by
  intro x
  induction x with
  | nil => intro v y _ _ _; cases v <;> rfl
  | cons a as ih =>
    intro v y hxv hvy hpre
    cases y with
    | nil => simp [List.isPrefixOf] at hpre
    | cons c cs =>
      simp only [List.isPrefixOf, Bool.and_eq_true, beq_iff_eq] at hpre
      obtain ⟨rfl, hpre2⟩ := hpre
      cases v with
      | nil => rw [lexLe_cons_nil] at hxv; exact absurd hxv (by simp)
      | cons d ds =>
        rcases lt_trichotomy a d with h1 | h1 | h1
        · rw [lexLe_cons_of_gt ds cs h1] at hvy
          exact absurd hvy (by simp)
        · subst h1
          rw [lexLe_cons_cons_self] at hxv hvy
          simp only [List.isPrefixOf, Bool.and_eq_true, beq_iff_eq]
          refine ⟨by trivial, ih hxv hvy hpre2⟩
        · rw [lexLe_cons_of_gt as ds h1] at hxv
          exact absurd hxv (by simp)

theorem ipcLoop_some_true_iff : ∀ (rest : List String) (a : String),
    libwordlist.ipcLoop (some a) rest = true ↔ List.Chain' okPair (a :: rest) := by
  intro rest
  induction rest with
  | nil =>
    intro a
    simp [libwordlist.ipcLoop, List.chain'_singleton]
  | cons e tl ih =>
    intro a
    rw [List.chain'_cons]
    by_cases hcond : a ≠ "" ∧ pyStartswith e a = true
    · simp only [libwordlist.ipcLoop, if_pos hcond]
      constructor
      · intro h; exact absurd h (by simp)
      · intro h; exact absurd hcond h.1
    · simp only [libwordlist.ipcLoop, if_neg hcond]
      rw [ih e]
      constructor
      · intro h; exact ⟨hcond, h⟩
      · intro h; exact h.2

theorem ipcLoop_none_true_iff (l : List String) :
    libwordlist.ipcLoop none l = true ↔ List.Chain' okPair l := by
  cases l with
  | nil =>
    constructor
    · intro _; exact List.chain'_nil
    · intro _; rfl
  | cons e tl =>
    have hstep : libwordlist.ipcLoop none (e :: tl) = libwordlist.ipcLoop (some e) tl := rfl
    rw [hstep, ipcLoop_some_true_iff]

theorem chain_ok_no_bad_pair : ∀ l : List String,
    List.Pairwise lexRel l → List.Chain' okPair l →
    ∀ a e : String, List.Sublist [a, e] l → okPair a e := by
  intro l
  induction l with
  | nil =>
    intro _ _ a e hsub
    exact absurd hsub (by simp)
  | cons c t ih =>
    intro hp hch a e hsub
    cases hsub with
    | cons _ hsub2 =>
      exact ih hp.of_cons hch.tail a e hsub2
    | cons₂ _ hsub2 =>
      intro hbad
      obtain ⟨hne, hpre⟩ := hbad
      have he_t : e ∈ t := List.singleton_sublist.mp hsub2
      cases t with
      | nil => simp at he_t
      | cons d t2 =>
        have hok_cd : okPair c d := (List.chain'_cons.mp hch).1
        apply hok_cd
        refine ⟨hne, ?_⟩
        have h1 : lexLe c.data d.data = true :=
          List.rel_of_pairwise_cons hp (show d ∈ d :: t2 by simp)
        have h2 : lexLe d.data e.data = true := by
          rcases List.mem_cons.mp he_t with rfl | he2
          · exact lexLe_refl _
          · exact List.rel_of_pairwise_cons hp.of_cons he2
        exact isPrefixOf_sandwich h1 h2 hpre

theorem exists_bad_pair_of_not_chain : ∀ l : List String, ¬ List.Chain' okPair l →
    ∃ a e, ¬ okPair a e ∧ List.Sublist [a, e] l := by
  intro l
  induction l with
  | nil => intro h; exact absurd List.chain'_nil h
  | cons c t ih =>
    intro h
    cases t with
    | nil => exact absurd (List.chain'_singleton c) h
    | cons d t2 =>
      by_cases h1 : okPair c d
      · have h2 : ¬ List.Chain' okPair (d :: t2) := fun hc => h (List.chain'_cons.mpr ⟨h1, hc⟩)
        obtain ⟨a, e, hbad, hsub⟩ := ih h2
        exact ⟨a, e, hbad, List.Sublist.cons c hsub⟩
      · exact ⟨c, d, h1,
          List.Sublist.cons₂ c (List.Sublist.cons₂ d (List.nil_sublist t2))⟩

theorem perm_pair_cases {t : List String} {a e : String} (h : t.Perm [a, e]) :
    t = [a, e] ∨ t = [e, a] := by
  have hlen : t.length = 2 := by simpa using h.length_eq
  cases t with
  | nil => simp at hlen
  | cons x t2 =>
    cases t2 with
    | nil => simp at hlen
    | cons y t3 =>
      cases t3 with
      | cons z t4 => simp at hlen
      | nil =>
        have hx : x = a ∨ x = e := by
          have := h.subset (show x ∈ [x, y] by simp)
          simpa using this
        rcases hx with rfl | rfl
        · left
          have h2 : ([y] : List String).Perm [e] := h.cons_inv
          have hy : y = e := by simpa using h2.subset (show y ∈ [y] by simp)
          rw [hy]
        · right
          have hswap : ([a, x] : List String).Perm [x, a] := List.Perm.swap x a []
          have h2 : ([y] : List String).Perm [a] := (h.trans hswap).cons_inv
          have hy : y = a := by simpa using h2.subset (show y ∈ [y] by simp)
          rw [hy]

end Wordlist

/-- C6 counterexample: the pool containing the empty string and the
string a: the empty string is a literal prefix of the distinct term a,
yet is_prefix_code returns true, because the Python guard treats the
empty last_elem as falsy and skips the prefix test. -/
theorem c6_empty_string_counterexample :
    libwordlist.is_prefix_code ["", "a"] = true ∧
    ("" : String) ≠ "a" ∧ Wordlist.pyStartswith "a" "" = true ∧
    List.Subperm ["", "a"] (["", "a"] : List String) :=
  ⟨by decide, by decide, by decide, List.Subperm.refl _⟩

/-- C6 amended: is_prefix_code returns true if and only if no NON-EMPTY
occurrence of a term is a literal string-prefix of another occurrence
(so a repeated non-empty term counts as a prefix of its duplicate,
while the empty string is never flagged as a prefix of anything). -/
theorem c6_is_prefix_code_iff (l : List String) :
    libwordlist.is_prefix_code l = true ↔
      ¬∃ a e : String, a ≠ "" ∧ Wordlist.pyStartswith e a = true ∧
        List.Subperm [a, e] l := by
  unfold libwordlist.is_prefix_code
  rw [Wordlist.ipcLoop_none_true_iff]
  have hperm : (l.insertionSort Wordlist.lexRel).Perm l := List.perm_insertionSort _ _
  have hsorted : List.Pairwise Wordlist.lexRel (l.insertionSort Wordlist.lexRel) :=
    List.sorted_insertionSort _ _
  constructor
  · intro hch hex
    obtain ⟨a, e, hne, hpre, hsub⟩ := hex
    have hsub2 : List.Subperm [a, e] (l.insertionSort Wordlist.lexRel) :=
      hsub.trans hperm.symm.subperm
    obtain ⟨t, htp, hts⟩ := hsub2
    rcases Wordlist.perm_pair_cases htp with rfl | heq
    · exact (Wordlist.chain_ok_no_bad_pair _ hsorted hch a e hts) ⟨hne, hpre⟩
    · rw [heq] at hts
      have hpw := List.Pairwise.sublist hts hsorted
      have h1 : Wordlist.lexLe e.data a.data = true :=
        List.rel_of_pairwise_cons hpw (by simp)
      have h2 : Wordlist.lexLe a.data e.data = true := Wordlist.isPrefixOf_le hpre
      have hdata : a.data = e.data := Wordlist.lexLe_antisymm h2 h1
      have hae : a = e := by
        obtain ⟨da⟩ := a
        obtain ⟨de⟩ := e
        exact congrArg String.mk (by simpa using hdata)
      subst hae
      exact (Wordlist.chain_ok_no_bad_pair _ hsorted hch a a hts) ⟨hne, hpre⟩
  · intro hno
    by_contra hch
    obtain ⟨a, e, hbad, hsub⟩ := Wordlist.exists_bad_pair_of_not_chain _ hch
    have hbad2 := not_not.mp hbad
    exact hno ⟨a, e, hbad2.1, hbad2.2, hsub.subperm.trans hperm.subperm⟩
